import Mathlib

/-!
Shallow embedding of the database-construction and temporal-alignment
matching engine of the audio-fingerprinting repository (builder.py and
matcher.py).  Embedding vectors (float32 rows in the source) are modelled
as rows of rationals; machine floats are treated as exact reals, which is
the reading the specification itself uses ("exact dot product").
Fallible code paths (Python exceptions such as ValueError raised by
max([]) or np.stack([])) are modelled with Option, none standing for an
uncaught exception.
-/

set_option linter.unusedSectionVars false

namespace Pfann

/-- One embedding row (a float32 vector in the source).  Scores and
coordinates live in an arbitrary linear ordered commutative ring R:
every float value is a rational, so R = ℚ covers the source exactly,
while the concrete witness instances use R = ℤ. -/
abbrev Vec (R : Type) := List R

variable {R : Type} [LinearOrderedCommRing R]

/-- Inner product of two flat float rows (np.dot). -/
def dot (x y : Vec R) : R := (List.zipWith (fun a b => a * b) x y).sum

/-- Entry i of the padded cumulative-sum array of per-track frame counts:
lmk counts i = counts[0] + ... + counts[i-1].  This is
np.pad(np.cumsum(landmarkKey), (1, 0)) read at index i (matcher.py line 71). -/
def lmk (counts : List ℕ) (i : ℕ) : ℕ := (counts.take i).sum

/-- The padded cumulative-sum array itself, as a list of length
counts.length + 1 (the frameOffset prefix-sum array of the spec). -/
def landmarkKeyArr (counts : List ℕ) : List ℕ :=
  (List.range (counts.length + 1)).map (fun i => lmk counts i)

/-- np.repeat(np.arange(len(songList)), landmarkKey) with the track ids
started at base; base = 0 gives the frame-to-track table of
matcher.py line 70. -/
def repeatFrom (base : ℕ) : List ℕ → List ℕ
  | [] => []
  | c :: cs => List.replicate c base ++ repeatFrom (base + 1) cs

/-- The frame-to-track lookup table index2song (matcher.py line 70). -/
def index2song (counts : List ℕ) : List ℕ := repeatFrom 0 counts

/-- Track id of a stored frame row: index2song[r]. -/
def song (counts : List ℕ) (r : ℕ) : ℕ := (index2song counts).getD r 0

theorem lmk_zero (counts : List ℕ) : lmk counts 0 = 0 := rfl

theorem lmk_succ (counts : List ℕ) (i : ℕ) (h : i < counts.length) :
    lmk counts (i + 1) = lmk counts i + counts.getD i 0 := by
  unfold lmk
  rw [List.sum_take_succ _ _ h, List.getD_eq_getElem _ _ h]

theorem sum_take_le (l : List ℕ) (i : ℕ) : (l.take i).sum ≤ l.sum := by
  induction l generalizing i with
  | nil => simp
  | cons c cs ih =>
    cases i with
    | zero => simp
    | succ i => simpa using Nat.add_le_add_left (ih i) c

theorem lmk_mono (counts : List ℕ) {i j : ℕ} (h : i ≤ j) :
    lmk counts i ≤ lmk counts j := by
  unfold lmk
  rw [show counts.take i = (counts.take j).take i by rw [List.take_take, min_eq_left h]]
  exact sum_take_le _ i

theorem lmk_le_sum (counts : List ℕ) (i : ℕ) : lmk counts i ≤ counts.sum :=
  sum_take_le counts i

theorem lmk_full (counts : List ℕ) (i : ℕ) (h : counts.length ≤ i) :
    lmk counts i = counts.sum := by
  unfold lmk
  rw [List.take_of_length_le h]

theorem repeatFrom_length (base : ℕ) (counts : List ℕ) :
    (repeatFrom base counts).length = counts.sum := by
  induction counts generalizing base with
  | nil => rfl
  | cons c cs ih => simp [repeatFrom, ih]

theorem repeatFrom_getD (counts : List ℕ) (base i j : ℕ)
    (hi : i < counts.length) (hj : j < counts.getD i 0) :
    (repeatFrom base counts).getD (lmk counts i + j) 0 = base + i := by
  induction counts generalizing base i with
  | nil => simp at hi
  | cons c cs ih =>
    cases i with
    | zero =>
      simp only [List.getD_cons_zero] at hj
      simp only [repeatFrom, lmk_zero, Nat.zero_add, Nat.add_zero]
      rw [List.getD_append _ _ _ _ (by simpa using hj)]
      simp [hj]
    | succ i =>
      simp only [List.getD_cons_succ] at hj
      simp only [List.length_cons, Nat.succ_lt_succ_iff] at hi
      have hl : lmk (c :: cs) (i + 1) = c + lmk cs i := by
        simp [lmk, List.take_succ_cons]
      simp only [repeatFrom, hl]
      rw [Nat.add_assoc, List.getD_append_right _ _ _ _ (by simp)]
      simp only [List.length_replicate, Nat.add_sub_cancel_left]
      rw [ih (base + 1) i hi hj]
      omega

theorem lmk_decompose (counts : List ℕ) (r : ℕ) (h : r < counts.sum) :
    ∃ i, i < counts.length ∧ lmk counts i ≤ r ∧ r < lmk counts (i + 1) := by
  induction counts generalizing r with
  | nil => simp at h
  | cons c cs ih =>
    by_cases hr : r < c
    · exact ⟨0, by simp, by simp [lmk], by simpa [lmk, List.take_succ_cons] using hr⟩
    · push_neg at hr
      have : r - c < cs.sum := by simp at h; omega
      obtain ⟨i, hi, h1, h2⟩ := ih (r - c) this
      refine ⟨i + 1, by simpa using hi, ?_, ?_⟩
      · simp only [lmk, List.take_succ_cons, List.sum_cons]
        unfold lmk at h1; omega
      · simp only [lmk, List.take_succ_cons, List.sum_cons]
        unfold lmk at h2; omega

theorem song_eq (counts : List ℕ) {i r : ℕ} (hi : i < counts.length)
    (h1 : lmk counts i ≤ r) (h2 : r < lmk counts (i + 1)) :
    song counts r = i := by
  have hj : r - lmk counts i < counts.getD i 0 := by
    rw [lmk_succ counts i hi] at h2; omega
  have := repeatFrom_getD counts 0 i (r - lmk counts i) hi hj
  unfold song index2song
  rw [show lmk counts i + (r - lmk counts i) = r by omega] at this
  simpa using this

/-- Range characterisation of the frame-to-track lookup: each stored row r
falls in the half-open frame range of the track index2song[r]. -/
theorem song_spec (counts : List ℕ) {r : ℕ} (h : r < counts.sum) :
    song counts r < counts.length ∧
      lmk counts (song counts r) ≤ r ∧ r < lmk counts (song counts r + 1) := by
  obtain ⟨i, hi, h1, h2⟩ := lmk_decompose counts r h
  rw [song_eq counts hi h1 h2]
  exact ⟨hi, h1, h2⟩

theorem song_mono (counts : List ℕ) {r₁ r₂ : ℕ} (h : r₁ ≤ r₂)
    (h₂ : r₂ < counts.sum) : song counts r₁ ≤ song counts r₂ := by
  have hr₁ : r₁ < counts.sum := lt_of_le_of_lt h h₂
  obtain ⟨_, hb₁, _⟩ := song_spec counts hr₁
  obtain ⟨_, _, ha₂⟩ := song_spec counts h₂
  by_contra hc
  push_neg at hc
  have := lmk_mono counts (show song counts r₂ + 1 ≤ song counts r₁ from hc)
  omega

/-! ### Database builder (builder.py)

For each track the builder feeds the track segments through the embedding
model in batches of 16 (torch.split(wav.squeeze(0), 16), builder.py
line 77), appends one embedding row per segment to the flat store, and
records the per-track segment count wav.shape[1] in the raw landmarkKey
list (builder.py line 93). -/

/-- Consecutive batches of at most m elements, m ≥ 1 (torch.split). -/
def splitChunks (m : ℕ) : List α → List (List α)
  | [] => []
  | x :: xs => (x :: xs.take (m - 1)) :: splitChunks m (xs.drop (m - 1))
termination_by l => l.length
decreasing_by simp only [List.length_cons, List.length_drop]; omega

theorem splitChunks_flatten (m : ℕ) : ∀ l : List α, (splitChunks m l).flatten = l
  | [] => by rw [splitChunks]; rfl
  | x :: xs => by
    rw [splitChunks, List.flatten_cons, splitChunks_flatten m (xs.drop (m - 1))]
    simp
termination_by l => l.length
decreasing_by simp only [List.length_cons, List.length_drop]; omega

/-- Raw per-track frame counts written to the landmarkKey file: one entry
wav.shape[1] (number of segments) per track, in input order. -/
def buildCounts (tracks : List (List α)) : List ℕ := tracks.map List.length

/-- The flat embedding store written to the embeddings file: each track is
processed in batches of 16 segments, the model produces one row per
segment, and all rows are appended in order. -/
def buildStore (modelF : α → Vec R) (tracks : List (List α)) : List (Vec R) :=
  (tracks.map (fun segs =>
    ((splitChunks 16 segs).map (fun batch => batch.map modelF)).flatten)).flatten

theorem buildStore_eq (modelF : α → Vec R) (tracks : List (List α)) :
    buildStore modelF tracks = (tracks.map (fun segs => segs.map modelF)).flatten := by
  have h : ∀ segs : List α,
      ((splitChunks 16 segs).map (fun batch => batch.map modelF)).flatten = segs.map modelF :=
    fun segs => by rw [← List.map_flatten, splitChunks_flatten]
  simp only [buildStore, h]

theorem buildStore_length (modelF : α → Vec R) (tracks : List (List α)) :
    (buildStore modelF tracks).length = (buildCounts tracks).sum := by
  rw [buildStore_eq]
  simp [buildCounts, List.length_flatten, Function.comp_def]

theorem landmarkKeyArr_length (counts : List ℕ) :
    (landmarkKeyArr counts).length = counts.length + 1 := by
  simp [landmarkKeyArr]

theorem landmarkKeyArr_getD (counts : List ℕ) (i : ℕ) (h : i ≤ counts.length) :
    (landmarkKeyArr counts).getD i 0 = lmk counts i := by
  unfold landmarkKeyArr
  rw [List.getD_eq_getElem _ _ (by simpa using Nat.lt_succ_of_le h)]
  simp

/-- C5: for every built-and-loaded database, the frameOffset prefix-sum
array has length trackCount + 1, starts at 0, has consecutive differences
equal to the per-track frame counts, and its last entry equals the total
number of rows in the embedding store. -/
theorem C5_prefix_sum_invariant (modelF : α → Vec R) (tracks : List (List α)) :
    (landmarkKeyArr (buildCounts tracks)).length = (buildCounts tracks).length + 1 ∧
    (landmarkKeyArr (buildCounts tracks)).getD 0 0 = 0 ∧
    (∀ i, i < (buildCounts tracks).length →
      (landmarkKeyArr (buildCounts tracks)).getD (i + 1) 0 -
        (landmarkKeyArr (buildCounts tracks)).getD i 0 = (buildCounts tracks).getD i 0) ∧
    (landmarkKeyArr (buildCounts tracks)).getD (buildCounts tracks).length 0 =
      (buildStore modelF tracks).length := by
  refine ⟨landmarkKeyArr_length _, ?_, ?_, ?_⟩
  · rw [landmarkKeyArr_getD _ 0 (Nat.zero_le _), lmk_zero]
  · intro i hi
    rw [landmarkKeyArr_getD _ i (le_of_lt hi), landmarkKeyArr_getD _ (i + 1) hi,
      lmk_succ _ i hi]
    omega
  · rw [landmarkKeyArr_getD _ _ le_rfl, lmk_full _ _ le_rfl, buildStore_length]

/-- Witness for C5 at a concrete two-track input. -/
theorem C5_prefix_sum_invariant_witness :
    (landmarkKeyArr (buildCounts [[10, 20], [30]])).length =
        (buildCounts [[(10 : ℤ), 20], [30]]).length + 1 ∧
      (landmarkKeyArr (buildCounts [[(10 : ℤ), 20], [30]])).getD 0 0 = 0 ∧
      (∀ i, i < (buildCounts [[(10 : ℤ), 20], [30]]).length →
        (landmarkKeyArr (buildCounts [[(10 : ℤ), 20], [30]])).getD (i + 1) 0 -
          (landmarkKeyArr (buildCounts [[(10 : ℤ), 20], [30]])).getD i 0 =
            (buildCounts [[(10 : ℤ), 20], [30]]).getD i 0) ∧
      (landmarkKeyArr (buildCounts [[(10 : ℤ), 20], [30]])).getD
          (buildCounts [[(10 : ℤ), 20], [30]]).length 0 =
        (buildStore (fun q => [q]) [[(10 : ℤ), 20], [30]]).length :=
  C5_prefix_sum_invariant (fun q => [q]) [[(10 : ℤ), 20], [30]]

/-- C6: for every frame row r, the frame-to-track lookup returns a track
index i satisfying frameOffset[i] ≤ r < frameOffset[i+1], and i is the
largest index whose frame offset does not exceed r (zero-frame tracks
included). -/
theorem C6_lookup_correct (counts : List ℕ) (r : ℕ) (h : r < counts.sum) :
    lmk counts (song counts r) ≤ r ∧ r < lmk counts (song counts r + 1) ∧
      ∀ j, lmk counts j ≤ r → j ≤ song counts r := by
  obtain ⟨hlen, h1, h2⟩ := song_spec counts h
  refine ⟨h1, h2, fun j hj => ?_⟩
  by_contra hc
  push_neg at hc
  have := lmk_mono counts (show song counts r + 1 ≤ j from hc)
  omega

/-- Witness for C6 on a database with a zero-frame track. -/
theorem C6_lookup_correct_witness :
    lmk [2, 0, 3] (song [2, 0, 3] 2) ≤ 2 ∧ 2 < lmk [2, 0, 3] (song [2, 0, 3] 2 + 1) ∧
      ∀ j, lmk [2, 0, 3] j ≤ 2 → j ≤ song [2, 0, 3] 2 :=
  C6_lookup_correct [2, 0, 3] 2 (by decide)

/-! ### Exhaustive matching (matcher.py lines 134-158)

dists = embeddings.numpy() @ arr.T is the full n × ntotal similarity
matrix; the 1-D accumulator scoreboard has length
ntotal + len(songList) * query_len, each row r writes at linear position
shift[r] + (query_len - t) for query frame t, where
shift = index2song * query_len + arange(ntotal). -/

/-- Entry (t, r) of the full similarity matrix dists. -/
def simRow (query store : List (Vec R)) (t r : ℕ) : R :=
  dot (query.getD t []) (store.getD r [])

/-- shift = index2song * query_len + np.arange(index.ntotal)
(matcher.py line 140). -/
def exShift (counts : List ℕ) (n r : ℕ) : ℕ := song counts r * n + r

/-- Value of the exhaustive accumulator at linear cell k after all query
frames have added their shifted similarity rows (matcher.py lines 139-142). -/
def exScoreboard (counts : List ℕ) (store query : List (Vec R)) (k : ℕ) : R :=
  ((List.range query.length).map (fun t =>
    ((List.range store.length).map (fun r =>
      if exShift counts query.length r + (query.length - t) = k
      then simRow query store t r else 0)).sum)).sum

/-- Number of rows whose shifted key is at most k:
np.searchsorted(shift, k, side=right) for the strictly increasing shift. -/
def exCount (counts : List ℕ) (n ntotal k : ℕ) : ℕ :=
  (List.range ntotal).countP (fun r => exShift counts n r ≤ k)

/-- Decode of an accumulator cell back to (trackId, timeOffset)
(matcher.py lines 145-149): t1 = searchsorted(shift, k, right) - 1,
ans = index2song[t1], tim = k - shift[landmarkKey[ans]] - query_len. -/
def exDecode (counts : List ℕ) (n ntotal k : ℕ) : ℕ × ℤ :=
  let t1 := exCount counts n ntotal k - 1
  let ans := song counts t1
  (ans, (k : ℤ) - exShift counts n (lmk counts ans) - n)

theorem exShift_mono (counts : List ℕ) (n : ℕ) {r₁ r₂ : ℕ} (h : r₁ ≤ r₂)
    (h₂ : r₂ < counts.sum) : exShift counts n r₁ ≤ exShift counts n r₂ := by
  unfold exShift
  have := song_mono counts h h₂
  exact Nat.add_le_add (Nat.mul_le_mul_right n this) h

theorem list_range_sum_zero (n : ℕ) (f : ℕ → R)
    (h : ∀ r, r < n → f r = 0) : ((List.range n).map f).sum = 0 := by
  induction n with
  | zero => rfl
  | succ n ih =>
    rw [List.range_succ, List.map_append, List.sum_append]
    simp only [List.map_cons, List.map_nil, List.sum_cons, List.sum_nil]
    rw [ih (fun r hr => h r (Nat.lt_succ_of_lt hr)), h n (Nat.lt_succ_self n)]
    ring

theorem list_range_sum_single (n : ℕ) (f : ℕ → R) (r₀ : ℕ) (h₀ : r₀ < n)
    (h : ∀ r, r < n → r ≠ r₀ → f r = 0) : ((List.range n).map f).sum = f r₀ := by
  induction n with
  | zero => omega
  | succ n ih =>
    rw [List.range_succ, List.map_append, List.sum_append]
    simp only [List.map_cons, List.map_nil, List.sum_cons, List.sum_nil]
    by_cases hr : r₀ = n
    · have hz : ((List.range n).map f).sum = 0 :=
        list_range_sum_zero n f (fun r hrlt => h r (Nat.lt_succ_of_lt hrlt) (by omega))
      rw [hz, hr]
      ring
    · rw [ih (lt_of_le_of_ne (Nat.lt_succ_iff.mp h₀) hr)
        (fun r hr hne => h r (Nat.lt_succ_of_lt hr) hne),
        h n (Nat.lt_succ_self n) (fun he => hr he.symm)]
      ring

/-- Any (frame, row) pair writing into the cell k associated with track s
and alignment offset tim must come from track s itself, at the aligned
row lmk s + tim + t: the inter-track gaps of size n prevent any
cross-track contribution. -/
theorem exCell_contrib (counts : List ℕ) (store query : List (Vec R))
    {s : ℕ} {tim : ℤ} {k t r : ℕ}
    (hs : store.length = counts.sum)
    (hslen : s < counts.length)
    (htim1 : -(query.length : ℤ) ≤ tim)
    (htim2 : tim < (counts.getD s 0 : ℤ))
    (hk : (k : ℤ) = s * query.length + lmk counts s + tim + query.length)
    (ht : t < query.length) (hr : r < store.length)
    (heq : exShift counts query.length r + (query.length - t) = k) :
    song counts r = s ∧ (r : ℤ) = lmk counts s + tim + t := by
  have hrs : r < counts.sum := hs ▸ hr
  obtain ⟨hs2len, hra, hrb⟩ := song_spec counts hrs
  set n := query.length with hn
  set s2 := song counts r with hs2
  have heqz : (s2 : ℤ) * n + r + (n - t) = k := by
    have := congrArg (fun x : ℕ => (x : ℤ)) heq
    push_cast [exShift, Nat.cast_sub (le_of_lt ht)] at this
    linarith [this]
  have hlsucc : lmk counts (s + 1) = lmk counts s + counts.getD s 0 :=
    lmk_succ counts s hslen
  rcases lt_trichotomy s2 s with hlt | heqs | hgt
  · exfalso
    have hm : (s2 + 1) * n ≤ s * n := Nat.mul_le_mul_right n (by omega)
    have hmz : (s2 : ℤ) * n + n ≤ s * n := by push_cast [add_mul] at hm; linarith
    have hup : r < lmk counts s :=
      lt_of_lt_of_le hrb (lmk_mono counts (by omega))
    have hupz : (r : ℤ) < lmk counts s := by exact_mod_cast hup
    have htz : (0 : ℤ) ≤ t := Int.ofNat_nonneg t
    linarith
  · refine ⟨heqs, ?_⟩
    rw [heqs] at heqz
    linarith
  · exfalso
    have hm : (s + 1) * n ≤ s2 * n := Nat.mul_le_mul_right n (by omega)
    have hmz : (s : ℤ) * n + n ≤ s2 * n := by push_cast [add_mul] at hm; linarith
    have hlow : lmk counts (s + 1) ≤ r :=
      le_trans (lmk_mono counts (by omega)) hra
    have hlowz : (lmk counts s : ℤ) + counts.getD s 0 ≤ r := by
      rw [hlsucc] at hlow; exact_mod_cast hlow
    have htz : (t : ℤ) ≤ (n : ℤ) - 1 := by
      have : t + 1 ≤ n := ht
      exact_mod_cast by omega
    linarith

/-- The exhaustive accumulator cell for track s at alignment offset tim
holds exactly the sum, over query frames t with the aligned row inside
the track, of the similarity of frame t against the aligned stored row. -/
theorem exScoreboard_cell (counts : List ℕ) (store query : List (Vec R))
    {s : ℕ} {tim : ℤ} {k : ℕ}
    (hs : store.length = counts.sum)
    (hslen : s < counts.length)
    (htim1 : -(query.length : ℤ) ≤ tim)
    (htim2 : tim < (counts.getD s 0 : ℤ))
    (hk : (k : ℤ) = s * query.length + lmk counts s + tim + query.length) :
    exScoreboard counts store query k =
      ((List.range query.length).map (fun (t : ℕ) =>
        if 0 ≤ tim + (t : ℤ) ∧ tim + (t : ℤ) < (counts.getD s 0 : ℤ)
        then simRow query store t ((lmk counts s : ℤ) + tim + t).toNat
        else 0)).sum := by
  set n := query.length with hn
  have hlsucc : lmk counts (s + 1) = lmk counts s + counts.getD s 0 :=
    lmk_succ counts s hslen
  unfold exScoreboard
  refine congrArg List.sum (List.map_congr_left ?_)
  intro t htmem
  have ht : t < n := List.mem_range.mp htmem
  by_cases hcond : 0 ≤ tim + (t : ℤ) ∧ tim + (t : ℤ) < (counts.getD s 0 : ℤ)
  · rw [if_pos hcond]
    set r₀ := ((lmk counts s : ℤ) + tim + t).toNat with hr₀def
    have hr₀z : (r₀ : ℤ) = lmk counts s + tim + t := by
      rw [hr₀def, Int.toNat_of_nonneg (by linarith [hcond.1])]
    have hr₀lt : r₀ < store.length := by
      rw [hs]
      have h1 : (r₀ : ℤ) < lmk counts (s + 1) := by
        rw [hlsucc]; push_cast; linarith [hcond.2]
      have h2 : ((lmk counts (s + 1) : ℕ) : ℤ) ≤ (counts.sum : ℤ) := by
        exact_mod_cast lmk_le_sum counts (s + 1)
      exact_mod_cast lt_of_lt_of_le h1 h2
    have hsong₀ : song counts r₀ = s := by
      refine song_eq counts hslen ?_ ?_
      · have : (lmk counts s : ℤ) ≤ r₀ := by rw [hr₀z]; linarith [hcond.1]
        exact_mod_cast this
      · have : (r₀ : ℤ) < lmk counts (s + 1) := by
          rw [hr₀z, hlsucc]; push_cast; linarith [hcond.2]
        exact_mod_cast this
    rw [list_range_sum_single store.length _ r₀ hr₀lt ?_]
    · rw [if_pos]
      have : (exShift counts n r₀ : ℤ) + (n - t) = k := by
        unfold exShift
        rw [hsong₀]
        push_cast
        linarith [hr₀z]
      have hcast : ((exShift counts n r₀ + (n - t) : ℕ) : ℤ) = (k : ℤ) := by
        push_cast [Nat.cast_sub (le_of_lt ht)]
        linarith [this]
      exact_mod_cast hcast
    · intro r hr hne
      rw [if_neg]
      intro hPr
      obtain ⟨_, hreq⟩ := exCell_contrib counts store query hs hslen htim1 htim2 hk ht hr hPr
      exact hne (by omega)
  · rw [if_neg hcond]
    refine list_range_sum_zero store.length _ ?_
    intro r hr
    rw [if_neg]
    intro hPr
    obtain ⟨hsong, hreq⟩ := exCell_contrib counts store query hs hslen htim1 htim2 hk ht hr hPr
    have hrs : r < counts.sum := hs ▸ hr
    obtain ⟨_, hra, hrb⟩ := song_spec counts hrs
    rw [hsong] at hra hrb
    rw [hlsucc] at hrb
    have hraz : (lmk counts s : ℤ) ≤ r := by exact_mod_cast hra
    have hrbz : (r : ℤ) < lmk counts s + counts.getD s 0 := by exact_mod_cast hrb
    exact hcond ⟨by linarith, by linarith⟩

theorem countP_range_le (m b : ℕ) :
    (List.range m).countP (fun r => decide (r ≤ b)) = min (b + 1) m := by
  induction m with
  | zero => simp
  | succ m ih =>
    rw [List.range_succ, List.countP_append, ih]
    by_cases h : m ≤ b
    · simp only [List.countP_cons, List.countP_nil, decide_eq_true_eq, h, if_true]
      omega
    · simp only [List.countP_cons, List.countP_nil, decide_eq_true_eq, h, if_false]
      omega

/-- The decode of the cell associated with track s and alignment offset
tim recovers exactly (s, tim). -/
theorem exDecode_cell (counts : List ℕ) (query : List (Vec R))
    {s : ℕ} {tim : ℤ} {k ntotal : ℕ}
    (hnt : ntotal = counts.sum)
    (hslen : s < counts.length)
    (hc1 : 1 ≤ counts.getD s 0)
    (htim1 : -(query.length : ℤ) ≤ tim)
    (htim2 : tim < (counts.getD s 0 : ℤ))
    (hk : (k : ℤ) = s * query.length + lmk counts s + tim + query.length) :
    exDecode counts query.length ntotal k = (s, tim) := by
  set n := query.length with hn
  set t0 := lmk counts s with ht0
  have hlsucc : lmk counts (s + 1) = t0 + counts.getD s 0 := lmk_succ counts s hslen
  have hsum1 : lmk counts (s + 1) ≤ counts.sum := lmk_le_sum counts (s + 1)
  set a := (tim + n).toNat with ha
  have haz : (a : ℤ) = tim + n := Int.toNat_of_nonneg (by linarith)
  set t1x := t0 + min a (counts.getD s 0 - 1) with ht1x
  have ht1xa : t1x ≤ t0 + a := by omega
  have ht1xb : t1x ≤ t0 + counts.getD s 0 - 1 := by omega
  have ht1xlt : t1x < counts.sum := by omega
  have hsongx : song counts t1x = s := by
    refine song_eq counts hslen (by omega) (by omega)
  have hsong0 : song counts t0 = s := by
    refine song_eq counts hslen le_rfl (by omega)
  have hiff : ∀ r, r < ntotal → (exShift counts n r ≤ k ↔ r ≤ t1x) := by
    intro r hr
    have hrs : r < counts.sum := hnt ▸ hr
    constructor
    · intro hle
      obtain ⟨hs2len, hra, hrb⟩ := song_spec counts hrs
      rw [exShift] at hle
      rcases lt_trichotomy (song counts r) s with hlt | heqs | hgt
      · have : r < t0 := lt_of_lt_of_le hrb (lmk_mono counts (by omega))
        omega
      · rw [heqs] at hle
        have hlez : (s : ℤ) * n + r ≤ k := by exact_mod_cast hle
        have : (r : ℤ) ≤ t0 + tim + n := by linarith
        have hrle : (r : ℤ) ≤ t0 + a := by rw [haz]; linarith
        have hrle2 : r ≤ t0 + a := by exact_mod_cast hrle
        rw [heqs, hlsucc] at hrb
        omega
      · exfalso
        have hm : (s + 1) * n ≤ song counts r * n := Nat.mul_le_mul_right n (by omega)
        have hmz : (s : ℤ) * n + n ≤ (song counts r : ℤ) * n := by
          push_cast [add_mul] at hm; linarith
        have hlow : lmk counts (s + 1) ≤ r :=
          le_trans (lmk_mono counts (by omega)) hra
        have hlowz : (t0 : ℤ) + counts.getD s 0 ≤ r := by
          rw [hlsucc] at hlow; exact_mod_cast hlow
        have hlez : ((song counts r : ℕ) : ℤ) * n + r ≤ k := by exact_mod_cast hle
        linarith
    · intro hle
      have h1 : exShift counts n r ≤ exShift counts n t1x :=
        exShift_mono counts n hle ht1xlt
      refine le_trans h1 ?_
      rw [exShift, hsongx]
      have : (s : ℤ) * n + t1x ≤ k := by
        have ht1xz : (t1x : ℤ) ≤ t0 + a := by exact_mod_cast ht1xa
        rw [haz] at ht1xz
        linarith
      exact_mod_cast this
  have hcount : exCount counts n ntotal k = t1x + 1 := by
    unfold exCount
    rw [List.countP_congr (fun r hrmem => ?_), countP_range_le ntotal t1x]
    · omega
    · have hr : r < ntotal := List.mem_range.mp hrmem
      simpa only [decide_eq_true_eq] using hiff r hr
  unfold exDecode
  rw [hcount]
  simp only [Nat.add_sub_cancel]
  rw [hsongx, ← ht0, exShift, hsong0]
  refine Prod.ext rfl ?_
  simp only
  push_cast
  linarith

/-- C4: in exhaustive mode, the accumulator cell for track s at alignment
offset tim holds exactly the sum over query frames t of the similarity of
frame t against the stored frame aligned at that offset; contributions of
distinct tracks never reach that cell; and the decode of the cell yields
(s, tim) by locating the containing track range and subtracting the track
base and the query length. -/
theorem C4_exhaustive_accumulator (counts : List ℕ) (store query : List (Vec R))
    (s : ℕ) (tim : ℤ) (k : ℕ)
    (hs : store.length = counts.sum)
    (hslen : s < counts.length)
    (hc1 : 1 ≤ counts.getD s 0)
    (htim1 : -(query.length : ℤ) ≤ tim)
    (htim2 : tim < (counts.getD s 0 : ℤ))
    (hk : (k : ℤ) = s * query.length + lmk counts s + tim + query.length) :
    exScoreboard counts store query k =
      ((List.range query.length).map (fun (t : ℕ) =>
        if 0 ≤ tim + (t : ℤ) ∧ tim + (t : ℤ) < (counts.getD s 0 : ℤ)
        then simRow query store t ((lmk counts s : ℤ) + tim + t).toNat
        else 0)).sum ∧
    (∀ t r, t < query.length → r < store.length →
      exShift counts query.length r + (query.length - t) = k →
        song counts r = s) ∧
    exDecode counts query.length store.length k = (s, tim) := by
  refine ⟨exScoreboard_cell counts store query hs hslen htim1 htim2 hk, ?_, ?_⟩
  · intro t r ht hr heq
    exact (exCell_contrib counts store query hs hslen htim1 htim2 hk ht hr heq).1
  · exact exDecode_cell counts query hs hslen hc1 htim1 htim2 hk

/-- Witness for C4: two tracks of 2 and 3 frames, a 2-frame query,
track 1 at offset 1 (cell 7). -/
theorem C4_exhaustive_accumulator_witness :
    exScoreboard [2, 3] ([[1], [2], [3], [4], [5]] : List (Vec ℤ)) [[1], [1]] 7 =
      ((List.range ([[1], [1]] : List (Vec ℤ)).length).map (fun (t : ℕ) =>
        if 0 ≤ (1 : ℤ) + (t : ℤ) ∧ (1 : ℤ) + (t : ℤ) < (([2, 3] : List ℕ).getD 1 0 : ℤ)
        then simRow ([[1], [1]] : List (Vec ℤ)) [[1], [2], [3], [4], [5]] t
          ((lmk [2, 3] 1 : ℤ) + 1 + t).toNat
        else 0)).sum ∧
    (∀ t r, t < ([[1], [1]] : List (Vec ℤ)).length →
      r < ([[1], [2], [3], [4], [5]] : List (Vec ℤ)).length →
      exShift [2, 3] ([[1], [1]] : List (Vec ℤ)).length r +
        (([[1], [1]] : List (Vec ℤ)).length - t) = 7 →
        song [2, 3] r = 1) ∧
    exDecode [2, 3] ([[1], [1]] : List (Vec ℤ)).length
      ([[1], [2], [3], [4], [5]] : List (Vec ℤ)).length 7 = (1, 1) :=
  C4_exhaustive_accumulator [2, 3] ([[1], [2], [3], [4], [5]] : List (Vec ℤ))
    [[1], [1]] 1 1 7
    (by decide) (by decide) (by decide) (by decide) (by decide) (by decide)

/-- C10: every exhaustive-mode accumulator write index and every per-track
slice bound stays inside the accumulator of length
ntotal + trackCount * query_len. -/
theorem C10_scoreboard_bounds (counts : List ℕ) (store query : List (Vec R))
    (hs : store.length = counts.sum) :
    (∀ r t, r < store.length → t < query.length →
      exShift counts query.length r + (query.length - t) <
        store.length + counts.length * query.length) ∧
    (∀ s, s < counts.length →
      lmk counts s + s * query.length ≤
          lmk counts (s + 1) + (s + 1) * query.length ∧
        lmk counts (s + 1) + (s + 1) * query.length ≤
          store.length + counts.length * query.length) := by
  set n := query.length with hn
  constructor
  · intro r t hr ht
    have hrs : r < counts.sum := hs ▸ hr
    obtain ⟨hsl, _, _⟩ := song_spec counts hrs
    have h1 : song counts r * n + n ≤ counts.length * n := by
      have := Nat.mul_le_mul_right n (Nat.succ_le_of_lt hsl)
      rw [Nat.succ_mul] at this
      exact this
    have h2 : n - t ≤ n := Nat.sub_le n t
    rw [exShift]
    omega
  · intro s hsl
    have h1 : lmk counts s ≤ lmk counts (s + 1) := lmk_mono counts (Nat.le_succ s)
    have h2 : lmk counts (s + 1) ≤ counts.sum := lmk_le_sum counts (s + 1)
    have h3 : (s + 1) * n ≤ counts.length * n :=
      Nat.mul_le_mul_right n (Nat.succ_le_of_lt hsl)
    have h4 : s * n ≤ (s + 1) * n := Nat.mul_le_mul_right n (Nat.le_succ s)
    omega

/-- Witness for C10 on the two-track database. -/
theorem C10_scoreboard_bounds_witness :
    (∀ r t, r < ([[(1 : ℤ)], [2], [3], [4], [5]] : List (Vec ℤ)).length →
      t < ([[(1 : ℤ)], [1]] : List (Vec ℤ)).length →
      exShift [2, 3] ([[(1 : ℤ)], [1]] : List (Vec ℤ)).length r +
        (([[(1 : ℤ)], [1]] : List (Vec ℤ)).length - t) <
        ([[(1 : ℤ)], [2], [3], [4], [5]] : List (Vec ℤ)).length +
          ([2, 3] : List ℕ).length * ([[(1 : ℤ)], [1]] : List (Vec ℤ)).length) ∧
    (∀ s, s < ([2, 3] : List ℕ).length →
      lmk [2, 3] s + s * ([[(1 : ℤ)], [1]] : List (Vec ℤ)).length ≤
          lmk [2, 3] (s + 1) + (s + 1) * ([[(1 : ℤ)], [1]] : List (Vec ℤ)).length ∧
        lmk [2, 3] (s + 1) + (s + 1) * ([[(1 : ℤ)], [1]] : List (Vec ℤ)).length ≤
          ([[(1 : ℤ)], [2], [3], [4], [5]] : List (Vec ℤ)).length +
            ([2, 3] : List ℕ).length * ([[(1 : ℤ)], [1]] : List (Vec ℤ)).length) :=
  C10_scoreboard_bounds [2, 3] ([[1], [2], [3], [4], [5]] : List (Vec ℤ))
    [[1], [1]] (by decide)

/-! ### Approximate matching (matcher.py lines 160-210)

The index search returns, for each query frame, a row of
(score, frameId) pairs ordered by decreasing inner-product score.  The
candidate loop truncates each row with last_k, votes scores into a dict
keyed by (songId, dt), the refinement loop replaces each vote with an
exact recomputed score, and the final answer is Python max over the
(score, key) pairs. -/

/-- Number of consumed entries of one search row (matcher.py lines
164-167): last_k = top_k when np.all(dists[t] <= 2), otherwise
np.argmax(dists[t] > 2), the position of the first score exceeding 2. -/
def last_k (topK : ℕ) (scores : List R) : ℕ :=
  if scores.all (fun x => decide (x ≤ 2)) then topK
  else scores.findIdx (fun x => decide (2 < x))

/-- The candidates consumed for one frame: the first last_k entries of
the row (the loop for j in range(last_k), matcher.py line 168). -/
def consumedRow (topK : ℕ) (row : List (R × ℕ)) : List (R × ℕ) :=
  row.take (last_k topK (row.map Prod.fst))

/-- Candidate key of search hit t1 at query frame t (matcher.py lines
169-175): songId = index2song[t1], dt = (t1 - landmarkKey[songId]) *
frame_shift_mul - t. -/
def candKey (N : ℕ) (counts : List ℕ) (t t1 : ℕ) : ℕ × ℤ :=
  (song counts t1, ((t1 : ℤ) - lmk counts (song counts t1)) * N - t)

/-- All (key, score) contributions of one query (matcher.py lines
163-181): frame t contributes one entry per consumed candidate. -/
def contribs (N topK : ℕ) (counts : List ℕ) (rows : List (List (R × ℕ))) :
    List ((ℕ × ℤ) × R) :=
  (rows.enum.map (fun tr =>
    (consumedRow topK tr.2).map (fun p => (candKey N counts tr.1 p.2, p.1)))).flatten

/-- Coarse vote of one key: the sum of all scores contributed to it
(scoreboard[key] accumulation, matcher.py lines 176-181). -/
def coarseScore (N topK : ℕ) (counts : List ℕ) (rows : List (List (R × ℕ)))
    (key : ℕ × ℤ) : R :=
  ((contribs N topK counts rows).map (fun e => if e.1 = key then e.2 else 0)).sum

/-- The distinct surviving keys (the Python dict key set
scoreboard.keys(); only the set matters for every downstream value). -/
def coarseKeys (N topK : ℕ) (counts : List ℕ) (rows : List (List (R × ℕ))) :
    List (ℕ × ℤ) :=
  ((contribs N topK counts rows).map Prod.fst).dedup

/-- queryLen = (nFrames - 1) // N + 1 (matcher.py line 187). -/
def queryLenOf (N nFrames : ℕ) : ℕ := (nFrames - 1) / N + 1

/-- Query frame block after zero padding to queryLen * N rows and the
reshape/transpose into xn of shape [N, queryLen, d] (matcher.py lines
188-189): xn s u is padded row u * N + s. -/
def xnFrame (N d : ℕ) (query : List (Vec R)) (s u : ℕ) : Vec R :=
  (query ++ List.replicate (queryLenOf N query.length * N - query.length)
    (List.replicate d 0)).getD (u * N + s) (List.replicate d 0)

/-- np.max over a nonempty float array (the concrete uses are nonempty). -/
def listMax : List R → R
  | [] => 0
  | x :: xs => xs.foldl max x

/-- Refined score of one surviving key (matcher.py lines 190-203):
reconstruct the stored rows of the aligned window, flatten them, dot the
flattened query block against them for each of the N sub-offsets, and
take the max.  np.stack of an empty sequence raises ValueError, modelled
as none when the window [t_start, t_end) is empty. -/
def refineScore (N d : ℕ) (counts : List ℕ) (store query : List (Vec R))
    (key : ℕ × ℤ) : Option R :=
  let songStart := lmk counts key.1
  let songLen : ℤ := (lmk counts (key.1 + 1) : ℤ) - songStart
  let queryLen := queryLenOf N query.length
  let tFrame : ℤ := (key.2 - 1).fdiv N + 1
  let tStart : ℤ := max tFrame 0
  let tEnd : ℤ := min (tFrame + queryLen) songLen
  if tStart < tEnd then
    some (listMax ((List.range N).map (fun s =>
      dot
        (((List.range (tEnd - tStart).toNat).map (fun u =>
          xnFrame N d query s ((tStart - tFrame).toNat + u))).flatten)
        (((List.range (tEnd - tStart).toNat).map (fun u =>
          store.getD ((songStart + tStart).toNat + u) [])).flatten))))
  else none

/-- The refinement loop over a key list: every key is rescored; a key
whose window is empty aborts the whole loop with ValueError (none). -/
def refinePass (N d : ℕ) (counts : List ℕ) (store query : List (Vec R))
    (keys : List (ℕ × ℤ)) : Option (List ((ℕ × ℤ) × R)) :=
  keys.mapM (fun key =>
    (refineScore N d counts store query key).map (fun v => (key, v)))

/-- The refined scoreboard of a query (matcher.py lines 183-203). -/
def refinedBoard (N topK d : ℕ) (counts : List ℕ) (store query : List (Vec R))
    (rows : List (List (R × ℕ))) : Option (List ((ℕ × ℤ) × R)) :=
  refinePass N d counts store query (coarseKeys N topK counts rows)

/-- Python tuple comparison on (score, (songId, dt)). -/
def pyLt (a b : R × ℕ × ℤ) : Prop :=
  a.1 < b.1 ∨ (a.1 = b.1 ∧ (a.2.1 < b.2.1 ∨ (a.2.1 = b.2.1 ∧ a.2.2 < b.2.2)))

instance (a b : R × ℕ × ℤ) : Decidable (pyLt a b) := by
  unfold pyLt; exact inferInstance

/-- Python max over a list, none on the empty list (ValueError). -/
def lexMax : List (R × ℕ × ℤ) → Option (R × ℕ × ℤ)
  | [] => none
  | x :: xs => some (xs.foldl (fun acc y => if pyLt acc y then y else acc) x)

/-- sco, (ans, tim) = max(scoreboard) (matcher.py lines 205-210). -/
def matchResult (N topK d : ℕ) (counts : List ℕ) (store query : List (Vec R))
    (rows : List (List (R × ℕ))) : Option (R × ℕ × ℤ) :=
  (refinedBoard N topK d counts store query rows).bind (fun board =>
    lexMax (board.map (fun e => (e.2, e.1))))

/-- Per-track score dump: song_score starts at zeros and every surviving
key folds max into its track entry (matcher.py lines 133 and 205-208). -/
def songScore (board : List ((ℕ × ℤ) × R)) (s : ℕ) : R :=
  board.foldl (fun acc e => if e.1.1 = s then max acc e.2 else acc) 0

/-- Insert one scored hit into a list ranked by descending score, equal
scores tie-broken by ascending id. -/
def insertDesc (p : R × ℕ) : List (R × ℕ) → List (R × ℕ)
  | [] => [p]
  | q :: qs =>
    if q.1 < p.1 ∨ (p.1 = q.1 ∧ p.2 ≤ q.2) then p :: q :: qs
    else q :: insertDesc p qs

/-- Sort scored hits by descending score (insertion sort). -/
def sortDesc : List (R × ℕ) → List (R × ℕ)
  | [] => []
  | p :: ps => insertDesc p (sortDesc ps)

/-- Exact inner-product search model of the flat VectorIndex: all stored
rows ranked by descending score, equal scores tie-broken by ascending id
(every concrete instance below is tie-free, so the tie rule is inert). -/
def exactSearchAll (store : List (Vec R)) (q : Vec R) : List (R × ℕ) :=
  sortDesc ((List.range store.length).map (fun r => (dot q (store.getD r []), r)))

/-- dists, ids = index.search(x=embeddings, k=top_k) (matcher.py
line 160): one row of the top topK hits per query frame. -/
def searchRows (store : List (Vec R)) (query : List (Vec R)) (topK : ℕ) :
    List (List (R × ℕ)) :=
  query.map (fun q => (exactSearchAll store q).take topK)

/-- The whole approximate match of one query against a flat index. -/
def approxMatch (N topK d : ℕ) (counts : List ℕ) (store query : List (Vec R)) :
    Option (R × ℕ × ℤ) :=
  matchResult N topK d counts store query (searchRows store query topK)

/-- C1: when no candidate survives truncation for any query frame the
candidate set is empty, and the engine then evaluates Python max over an
empty list, which raises ValueError and aborts the batch (modelled as
none): no NoMatchFound outcome is produced.  Concrete failing run: a
one-frame query whose only search score is 4 > 2, so last_k = 0 for the
frame and the scoreboard dict stays empty. -/
theorem C1_empty_scoreboard_crashes :
    coarseKeys 1 1 [1] (searchRows [[(2 : ℤ)]] [[2]] 1) = [] ∧
      approxMatch 1 1 1 [1] [[(2 : ℤ)]] [[2]] = none := by
  constructor
  · decide
  · decide

/-- C2 counterexample: for the descending search row [(3, 0), (1, 1)]
with topK = 2, the claimed truncation (consume exactly the leading
candidates whose score exceeds 2) would keep [(3, 0)], but the code
consumes nothing: np.argmax(dists > 2) is 0 because the first score
already exceeds 2. -/
theorem C2_counterexample :
    consumedRow 2 [((3 : ℤ), (0 : ℕ)), (1, 1)] = [] ∧
      ([((3 : ℤ), (0 : ℕ)), (1, 1)].takeWhile (fun p => decide (2 < p.1)) = [(3, 0)]) ∧
      consumedRow 2 [((3 : ℤ), (0 : ℕ)), (1, 1)] ≠
        [((3 : ℤ), (0 : ℕ)), (1, 1)].takeWhile (fun p => decide (2 < p.1)) := by
  refine ⟨by decide, by decide, by decide⟩

/-- C8 counterexample: a key whose aligned window is empty is not skipped
by the refinement loop; np.stack over the empty reconstruction range
raises ValueError and the whole pass fails (none), even though another
key with a valid window is present. -/
theorem C8_counterexample :
    refineScore 1 1 [1] [[(1 : ℤ)]] [[1]] (0, -5) = none ∧
      refinePass 1 1 [1] [[(1 : ℤ)]] [[1]] [(0, 0), (0, -5)] = none := by
  constructor
  · decide
  · decide

/-- C9 counterexample: a query whose single surviving key refines to −1
for track 0 still gets per-track score 0 in the dump, because song_score
is initialised to zeros and only maxed; the claimed value (the maximum
refined score of the track, here −1) differs. -/
theorem C9_counterexample :
    refinedBoard 1 1 1 [1] [[(1 : ℤ)]] [[-1]] (searchRows [[(1 : ℤ)]] [[-1]] 1) =
        some [((0, 0), -1)] ∧
      songScore [(((0 : ℕ), (0 : ℤ)), (-1 : ℤ))] 0 = 0 ∧ ((0 : ℤ) ≠ -1) := by
  refine ⟨by decide, by decide, by decide⟩

/-- C7 counterexample: a fixed database (four orthogonal unit rows, one
track) and a fixed three-frame query for which the winning key (0, 1) is
the same under topK = 1 and topK = 2, but its coarse accumulated vote
drops from 4 to 3 when topK grows, because the extra rank-2 candidate of
frame 2 contributes the negative score −1 to the winning key. -/
theorem C7_counterexample :
    approxMatch 1 1 4 [4] [[(1 : ℤ), 0, 0, 0], [0, 1, 0, 0], [0, 0, 1, 0], [0, 0, 0, 1]]
        [[0, 2, 1, -1], [1, 0, 2, -1], [1, -2, -3, -1]] = some (3, 0, 1) ∧
      approxMatch 1 2 4 [4] [[(1 : ℤ), 0, 0, 0], [0, 1, 0, 0], [0, 0, 1, 0], [0, 0, 0, 1]]
        [[0, 2, 1, -1], [1, 0, 2, -1], [1, -2, -3, -1]] = some (3, 0, 1) ∧
      coarseScore 1 1 [4]
        (searchRows [[(1 : ℤ), 0, 0, 0], [0, 1, 0, 0], [0, 0, 1, 0], [0, 0, 0, 1]]
          [[0, 2, 1, -1], [1, 0, 2, -1], [1, -2, -3, -1]] 1) (0, 1) = 4 ∧
      coarseScore 1 2 [4]
        (searchRows [[(1 : ℤ), 0, 0, 0], [0, 1, 0, 0], [0, 0, 1, 0], [0, 0, 0, 1]]
          [[0, 2, 1, -1], [1, 0, 2, -1], [1, -2, -3, -1]] 2) (0, 1) = 3 ∧
      ¬ ((4 : ℤ) ≤ 3) := by
  refine ⟨by decide, by decide, by decide, by decide, by decide⟩

/-- The code truncation characterised (the amended C2): with results
sorted descending and one row per frame of length top_k, a frame keeps
all of its candidates when every score is at or below 2, and keeps none
otherwise (the first score exceeding 2 sits at position 0). -/
theorem C2_amended_truncation (topK : ℕ) (row : List (R × ℕ))
    (hlen : row.length = topK)
    (hsort : List.Sorted (fun a b : R => b ≤ a) (row.map Prod.fst)) :
    consumedRow topK row =
      if row.all (fun p => decide (p.1 ≤ 2)) then row else [] := by
  unfold consumedRow last_k
  have hmap : (row.map Prod.fst).all (fun x => decide (x ≤ 2)) =
      row.all (fun p => decide (p.1 ≤ 2)) := by
    clear hlen hsort
    induction row with
    | nil => rfl
    | cons p ps ih => simp only [List.map_cons, List.all_cons, ih]
  rw [hmap]
  by_cases hall : row.all (fun p => decide (p.1 ≤ 2))
  · rw [if_pos hall, if_pos hall, ← hlen, List.take_length]
  · rw [if_neg hall, if_neg hall]
    have hex : ∃ q ∈ row, ¬ (q.1 ≤ 2) := by
      by_contra hcon
      push_neg at hcon
      exact hall (List.all_eq_true.mpr (fun q hq => decide_eq_true (hcon q hq)))
    obtain ⟨q, hqmem, hq2⟩ := hex
    push_neg at hq2
    match row, hsort, hqmem with
    | p :: rest, hsort, hqmem =>
      have hhead : 2 < p.1 := by
        rcases List.mem_cons.mp hqmem with h | h
        · rw [h] at hq2
          exact hq2
        · have hle : q.1 ≤ p.1 := by
            have := (List.sorted_cons.mp hsort).1
            exact this q.1 (List.mem_map_of_mem Prod.fst h)
          exact lt_of_lt_of_le hq2 hle
      simp only [List.map_cons, List.findIdx_cons, decide_eq_true hhead, cond_true,
        List.take_zero]

/-- Witness for the amended C2: a descending row with all scores at or
below 2 is consumed whole. -/
theorem C2_amended_truncation_witness :
    consumedRow 2 [((1 : ℤ), (0 : ℕ)), (-1, 1)] =
      if [((1 : ℤ), (0 : ℕ)), (-1, 1)].all (fun p => decide (p.1 ≤ 2))
      then [((1 : ℤ), (0 : ℕ)), (-1, 1)] else [] :=
  C2_amended_truncation 2 [((1 : ℤ), (0 : ℕ)), (-1, 1)] (by decide) (by decide)

theorem songScore_filter (s : ℕ) (board : List ((ℕ × ℤ) × R)) :
    ∀ init : R,
      board.foldl (fun acc e => if e.1.1 = s then max acc e.2 else acc) init =
        ((board.filter (fun e => decide (e.1.1 = s))).map Prod.snd).foldl max init := by
  induction board with
  | nil => intro init; rfl
  | cons e rest ih =>
    intro init
    by_cases he : e.1.1 = s
    · simp only [List.foldl_cons, if_pos he, List.filter_cons, decide_eq_true he,
        List.map_cons]
      exact ih (max init e.2)
    · simp only [List.foldl_cons, if_neg he, List.filter_cons,
        decide_eq_false he, Bool.false_eq_true, if_false]
      exact ih init

theorem foldl_max_comm (i : R) : ∀ (vs : List R) (v : R),
    vs.foldl max (max i v) = max i (vs.foldl max v) := by
  intro vs
  induction vs with
  | nil => intro v; rfl
  | cons w ws ih =>
    intro v
    simp only [List.foldl_cons]
    rw [max_assoc, ih (max v w)]

/-- The per-track score dump characterised (the amended C9): for a track
observed among the surviving keys, the dumped value is the maximum of 0
and the maximum refined score over that track's keys. -/
theorem C9_amended_clamped_max (board : List ((ℕ × ℤ) × R)) (s : ℕ)
    (v : R) (vs : List R)
    (hobs : (board.filter (fun e => decide (e.1.1 = s))).map Prod.snd = v :: vs) :
    songScore board s = max 0 (vs.foldl max v) := by
  unfold songScore
  rw [songScore_filter s board 0, hobs, List.foldl_cons]
  exact foldl_max_comm 0 vs v

/-- Witness for the amended C9: track 0 has keys with refined scores
−1 and −2, and the dumped value is max 0 (−1) = 0. -/
theorem C9_amended_clamped_max_witness :
    songScore [(((0 : ℕ), (0 : ℤ)), (-1 : ℤ)), (((0 : ℕ), (1 : ℤ)), -2),
        (((1 : ℕ), (0 : ℤ)), 5)] 0 =
      max 0 ([(-2 : ℤ)].foldl max (-1)) :=
  C9_amended_clamped_max
    [(((0 : ℕ), (0 : ℤ)), (-1 : ℤ)), (((0 : ℕ), (1 : ℤ)), -2), (((1 : ℕ), (0 : ℤ)), 5)]
    0 (-1) [-2] (by decide)

theorem fdiv_lt_of_lt_mul {a b c : ℤ} (hb : 0 < b) (h : a < c * b) : a.fdiv b < c := by
  have h1 : a.fmod b + b * a.fdiv b = a := Int.fmod_add_fdiv a b
  have h2 : 0 ≤ a.fmod b := Int.fmod_nonneg' a hb
  by_contra hc
  push_neg at hc
  have h3 : c * b ≤ a.fdiv b * b := mul_le_mul_of_nonneg_right hc (le_of_lt hb)
  have h4 : b * a.fdiv b = a.fdiv b * b := mul_comm _ _
  linarith

theorem le_fdiv_of_mul_le {a b c : ℤ} (hb : 0 < b) (h : c * b ≤ a) : c ≤ a.fdiv b := by
  have h1 : a < (a.fdiv b + 1) * b := Int.lt_fdiv_add_one_mul_self a hb
  by_contra hc
  push_neg at hc
  have h2 : (a.fdiv b + 1) * b ≤ c * b := mul_le_mul_of_nonneg_right (by omega) (le_of_lt hb)
  linarith

theorem queryLen_mul_ge (N nF : ℕ) (hN : 1 ≤ N) (hf : 1 ≤ nF) :
    nF ≤ queryLenOf N nF * N := by
  unfold queryLenOf
  have hdm := Nat.div_add_mod (nF - 1) N
  have hml : (nF - 1) % N < N := Nat.mod_lt _ (by omega)
  have hr : ((nF - 1) / N + 1) * N = N * ((nF - 1) / N) + N := by ring
  omega

/-- Amended C8: every key produced by the candidate loop from a valid
search hit has a nonempty aligned refinement window, so the refinement
pass always succeeds on it; the empty-window case the claim speaks of is
unreachable. -/
theorem C8_amended_window_nonempty (N d : ℕ) (counts : List ℕ)
    (store query : List (Vec R)) (t t1 : ℕ)
    (hN : 1 ≤ N) (ht : t < query.length) (ht1 : t1 < counts.sum) :
    (refineScore N d counts store query (candKey N counts t t1)).isSome := by
  obtain ⟨hsl, hra, hrb⟩ := song_spec counts ht1
  set s := song counts t1 with hs
  set nF := query.length with hnF
  set qL := queryLenOf N nF with hqL
  have hqL1 : 1 ≤ qL := Nat.le_add_left 1 _
  have hnFle : nF ≤ qL * N := queryLen_mul_ge N nF hN (by omega)
  set m : ℤ := (t1 : ℤ) - lmk counts s with hm
  have hm0 : 0 ≤ m := by
    have : (lmk counts s : ℤ) ≤ t1 := by exact_mod_cast hra
    omega
  set songLen : ℤ := (lmk counts (s + 1) : ℤ) - lmk counts s with hsL
  have hmlt : m < songLen := by
    have : (t1 : ℤ) < lmk counts (s + 1) := by exact_mod_cast hrb
    omega
  set dt : ℤ := m * N - t with hdt
  have hNz : (0 : ℤ) < N := by exact_mod_cast hN
  have hfu : (dt - 1).fdiv N < m := by
    refine fdiv_lt_of_lt_mul hNz ?_
    have htz : (0 : ℤ) ≤ t := Int.ofNat_nonneg t
    omega
  have hfl : -(qL : ℤ) ≤ (dt - 1).fdiv N := by
    refine le_fdiv_of_mul_le hNz ?_
    have htq : (t : ℤ) ≤ (qL : ℤ) * N - 1 := by
      have h1 : (t : ℤ) < nF := by exact_mod_cast ht
      have h2 : (nF : ℤ) ≤ (qL : ℤ) * N := by exact_mod_cast hnFle
      omega
    have hmN : 0 ≤ m * N := mul_nonneg hm0 (le_of_lt hNz)
    have htz : (0 : ℤ) ≤ t := Int.ofNat_nonneg t
    have hdt1 : dt - 1 = m * N - t - 1 := by rw [hdt]
    rw [hdt1]
    linarith
  have hcond : max ((dt - 1).fdiv N + 1) 0 < min ((dt - 1).fdiv N + 1 + qL) songLen := by
    have h1 : (0 : ℤ) < (dt - 1).fdiv N + 1 + qL := by
      have : (1 : ℤ) ≤ qL := by exact_mod_cast hqL1
      omega
    have h2 : (0 : ℤ) < songLen := by omega
    have h3 : (dt - 1).fdiv N + 1 < (dt - 1).fdiv N + 1 + qL := by
      have : (1 : ℤ) ≤ qL := by exact_mod_cast hqL1
      omega
    have h4 : (dt - 1).fdiv N + 1 < songLen := by omega
    exact max_lt (lt_min h3 h4) (lt_min h1 h2)
  have hkey : candKey N counts t t1 = (s, dt) := by
    rw [candKey, ← hs, hdt, hm]
  rw [hkey, refineScore]
  simp only
  rw [if_pos hcond]
  rfl

/-- Witness for the amended C8: frame 0 hitting stored row 1 of a
two-frame track. -/
theorem C8_amended_window_nonempty_witness :
    (refineScore 1 1 [2] ([[1], [2]] : List (Vec ℤ)) [[1]]
      (candKey 1 [2] 0 1)).isSome :=
  C8_amended_window_nonempty 1 1 [2] ([[1], [2]] : List (Vec ℤ)) [[1]] 0 1
    (by decide) (by decide) (by decide)

theorem dot_append (x₁ x₂ y₁ y₂ : Vec R) (h : x₁.length = y₁.length) :
    dot (x₁ ++ x₂) (y₁ ++ y₂) = dot x₁ y₁ + dot x₂ y₂ := by
  unfold dot
  rw [List.zipWith_append _ _ _ _ _ h, List.sum_append]

theorem flatten_length_uniform (d n : ℕ) (f : ℕ → Vec R)
    (hf : ∀ u, u < n → (f u).length = d) :
    (((List.range n).map f).flatten).length = n * d := by
  induction n with
  | zero => simp
  | succ n ih =>
    rw [List.range_succ, List.map_append, List.flatten_append]
    simp only [List.map_cons, List.map_nil, List.flatten_cons, List.flatten_nil,
      List.append_nil, List.length_append]
    rw [ih (fun u hu => hf u (Nat.lt_succ_of_lt hu)), hf n (Nat.lt_succ_self n)]
    ring

/-- The dot product of two flattened uniform-width frame blocks is the
sum of the per-frame dot products (the reshape/flatten identity behind
np.dot(xn.reshape([N, -1]), vectors.flatten())). -/
theorem dot_flatten_maps (d n : ℕ) (f g : ℕ → Vec R)
    (hf : ∀ u, u < n → (f u).length = d) (hg : ∀ u, u < n → (g u).length = d) :
    dot (((List.range n).map f).flatten) (((List.range n).map g).flatten) =
      ((List.range n).map (fun u => dot (f u) (g u))).sum := by
  induction n with
  | zero => rfl
  | succ n ih =>
    rw [List.range_succ, List.map_append, List.map_append, List.flatten_append,
      List.flatten_append]
    simp only [List.map_cons, List.map_nil, List.flatten_cons, List.flatten_nil,
      List.append_nil]
    rw [dot_append _ _ _ _ (by
      rw [flatten_length_uniform d n f (fun u hu => hf u (Nat.lt_succ_of_lt hu)),
        flatten_length_uniform d n g (fun u hu => hg u (Nat.lt_succ_of_lt hu))])]
    rw [ih (fun u hu => hf u (Nat.lt_succ_of_lt hu)) (fun u hu => hg u (Nat.lt_succ_of_lt hu)),
      List.map_append, List.sum_append]
    simp

/-- C3: with temporal resolution multiplier N = 1 and the aligned window
fully inside the track, the refined score of the winning key equals the
exact dot product of the query frame block against the stored rows of
the window, and that value equals the exhaustive-mode accumulator score
of the same (track, dt) alignment. -/
theorem C3_refinement_exact (counts : List ℕ) (store query : List (Vec R)) (d : ℕ)
    (s : ℕ) (dt : ℤ) (k : ℕ)
    (hs : store.length = counts.sum)
    (hslen : s < counts.length)
    (hn : 1 ≤ query.length)
    (hdq : ∀ v ∈ query, v.length = d)
    (hdst : ∀ v ∈ store, v.length = d)
    (hdt0 : 0 ≤ dt)
    (hdt1 : dt + query.length ≤ (counts.getD s 0 : ℤ))
    (hk : (k : ℤ) = s * query.length + lmk counts s + dt + query.length) :
    refineScore 1 d counts store query (s, dt) =
      some (((List.range query.length).map (fun t =>
        simRow query store t ((lmk counts s : ℤ) + dt + t).toNat)).sum) ∧
    ((List.range query.length).map (fun t =>
        simRow query store t ((lmk counts s : ℤ) + dt + t).toNat)).sum =
      exScoreboard counts store query k := by
  set n := query.length with hnq
  have hsucc : lmk counts (s + 1) = lmk counts s + counts.getD s 0 :=
    lmk_succ counts s hslen
  have hq1 : queryLenOf 1 n = n := by unfold queryLenOf; omega
  have hnz : (1 : ℤ) ≤ (n : ℤ) := by exact_mod_cast hn
  have hstorelt : ∀ u, u < n → ((lmk counts s : ℤ) + dt + u).toNat < store.length := by
    intro u hu
    have h1 : (lmk counts s : ℤ) + dt + u < lmk counts (s + 1) := by
      rw [hsucc]
      push_cast
      have : (u : ℤ) < n := by exact_mod_cast hu
      omega
    have h2 : (lmk counts (s + 1) : ℤ) ≤ counts.sum := by
      exact_mod_cast lmk_le_sum counts (s + 1)
    rw [hs]
    omega
  constructor
  · unfold refineScore
    simp only [hq1, Nat.cast_one, Int.fdiv_one]
    have htF : dt - 1 + 1 = dt := by ring
    rw [htF]
    have hstart : max dt 0 = dt := max_eq_left hdt0
    have hsLen : ((lmk counts (s + 1) : ℤ) - (lmk counts s : ℤ)) =
        (counts.getD s 0 : ℤ) := by
      rw [hsucc]; push_cast; ring
    have hend : min (dt + (n : ℤ)) ((lmk counts (s + 1) : ℤ) - (lmk counts s : ℤ)) =
        dt + n := by
      rw [hsLen]; exact min_eq_left hdt1
    rw [hstart, hend]
    have hlt : dt < dt + (n : ℤ) := by omega
    rw [if_pos hlt]
    have hspan : (dt + (n : ℤ) - dt).toNat = n := by omega
    have hq0 : (dt - dt).toNat = 0 := by omega
    rw [hspan, hq0]
    congr 1
    show listMax [dot
        (((List.range n).map (fun u => xnFrame 1 d query 0 (0 + u))).flatten)
        (((List.range n).map (fun u =>
          store.getD (((lmk counts s : ℤ) + dt).toNat + u) [])).flatten)] = _
    rw [show ∀ x : R, listMax [x] = x from fun x => rfl]
    have hxn : ∀ u, u < n → xnFrame 1 d query 0 (0 + u) = query.getD u [] := by
      intro u hu
      unfold xnFrame
      rw [← hnq, hq1]
      simp only [Nat.sub_self, List.replicate_zero, List.append_nil, Nat.mul_one,
        Nat.add_zero, Nat.zero_add]
      rw [List.getD_eq_getElem query _ (hnq ▸ hu), List.getD_eq_getElem query [] (hnq ▸ hu)]
    have hidx : ∀ u : ℕ, ((lmk counts s : ℤ) + dt).toNat + u =
        ((lmk counts s : ℤ) + dt + (u : ℤ)).toNat := by
      intro u
      have hnn : (0 : ℤ) ≤ (lmk counts s : ℤ) + dt := by
        have := Int.ofNat_nonneg (lmk counts s)
        omega
      omega
    have hf : ∀ u, u < n → (xnFrame 1 d query 0 (0 + u)).length = d := by
      intro u hu
      rw [hxn u hu, List.getD_eq_getElem query [] (hnq ▸ hu)]
      exact hdq _ (List.getElem_mem _)
    have hg : ∀ u, u < n →
        (store.getD (((lmk counts s : ℤ) + dt).toNat + u) []).length = d := by
      intro u hu
      rw [hidx u, List.getD_eq_getElem store [] (hstorelt u hu)]
      exact hdst _ (List.getElem_mem _)
    rw [dot_flatten_maps d n _ _ hf hg]
    refine congrArg List.sum (List.map_congr_left ?_)
    intro u humem
    have hu : u < n := List.mem_range.mp humem
    rw [hxn u hu, hidx u]
    rfl
  · have h0 : (0 : ℤ) ≤ (n : ℤ) := Int.ofNat_nonneg n
    have htim1 : -(n : ℤ) ≤ dt := by linarith
    have htim2 : dt < (counts.getD s 0 : ℤ) := by linarith
    rw [exScoreboard_cell counts store query hs hslen htim1 htim2 hk]
    refine congrArg List.sum (List.map_congr_left ?_)
    intro t htmem
    have ht : t < n := List.mem_range.mp htmem
    have htz : (0 : ℤ) ≤ t := Int.ofNat_nonneg t
    have htn : (t : ℤ) < n := by exact_mod_cast ht
    rw [if_pos ⟨by omega, by omega⟩]

/-- Witness for C3: one track of three rows, a two-frame query aligned at
offset 1 (cell 3). -/
theorem C3_refinement_exact_witness :
    refineScore 1 1 [3] ([[1], [2], [3]] : List (Vec ℤ)) [[1], [1]] (0, 1) =
      some (((List.range ([[1], [1]] : List (Vec ℤ)).length).map (fun t =>
        simRow ([[1], [1]] : List (Vec ℤ)) [[1], [2], [3]] t
          ((lmk [3] 0 : ℤ) + 1 + t).toNat)).sum) ∧
    ((List.range ([[1], [1]] : List (Vec ℤ)).length).map (fun t =>
        simRow ([[1], [1]] : List (Vec ℤ)) [[1], [2], [3]] t
          ((lmk [3] 0 : ℤ) + 1 + t).toNat)).sum =
      exScoreboard [3] [[1], [2], [3]] [[1], [1]] 3 :=
  C3_refinement_exact [3] ([[1], [2], [3]] : List (Vec ℤ)) [[1], [1]] 1 0 1 3
    (by decide) (by decide) (by decide) (by decide) (by decide) (by decide)
    (by decide) (by decide)

theorem all_le2_map (l : List (R × ℕ)) :
    ((l.map Prod.fst).all (fun x => decide (x ≤ 2))) =
      l.all (fun p => decide (p.1 ≤ 2)) := by
  induction l with
  | nil => rfl
  | cons p ps ih => simp only [List.map_cons, List.all_cons, ih]

theorem consumedRow_of_all (topK : ℕ) (l : List (R × ℕ))
    (h : l.all (fun p => decide (p.1 ≤ 2))) : consumedRow topK l = l.take topK := by
  unfold consumedRow last_k
  rw [all_le2_map, if_pos h]

theorem consumedRow_nil_of_head_gt (topK : ℕ) (p : R × ℕ) (rest : List (R × ℕ))
    (hp : 2 < p.1) : consumedRow topK (p :: rest) = [] := by
  unfold consumedRow last_k
  rw [all_le2_map]
  have hfalse : (p :: rest).all (fun q => decide (q.1 ≤ 2)) = false := by
    simp only [List.all_cons, decide_eq_false (not_le.mpr hp), Bool.false_and]
  rw [hfalse]
  simp only [Bool.false_eq_true, if_false, List.map_cons, List.findIdx_cons,
    decide_eq_true hp, cond_true, List.take_zero]

/-- For a fixed descending-sorted full search row, raising top_k only
extends the consumed candidate list: the smaller consumption is a prefix
of the larger. -/
theorem consumedRow_prefix (topK1 topK2 : ℕ) (row : List (R × ℕ)) (hk : topK1 ≤ topK2)
    (hsort : List.Sorted (fun a b : R => b ≤ a) (row.map Prod.fst)) :
    consumedRow topK1 (row.take topK1) <+: consumedRow topK2 (row.take topK2) := by
  have htake : row.take topK1 = (row.take topK2).take topK1 := by
    rw [List.take_take, min_eq_left hk]
  by_cases hall2 : (row.take topK2).all (fun p => decide (p.1 ≤ 2))
  · have hall1 : (row.take topK1).all (fun p => decide (p.1 ≤ 2)) := by
      refine List.all_eq_true.mpr (fun p hp => ?_)
      exact List.all_eq_true.mp hall2 p (htake ▸ hp |> List.take_subset _ _)
    rw [consumedRow_of_all topK1 _ hall1, consumedRow_of_all topK2 _ hall2,
      List.take_take, min_self, List.take_take, min_self, htake]
    exact List.take_prefix topK1 (row.take topK2)
  · match hrow : row, hsort with
    | [], _ =>
      simp only [List.take_nil] at hall2
      exact absurd rfl hall2
    | p :: rest, hsort =>
      have hex : ∃ q ∈ (p :: rest).take topK2, ¬ (q.1 ≤ 2) := by
        by_contra hcon
        push_neg at hcon
        exact hall2 (List.all_eq_true.mpr (fun q hq => decide_eq_true (hcon q hq)))
      obtain ⟨q, hqmem, hq2⟩ := hex
      push_neg at hq2
      have hhead : 2 < p.1 := by
        rcases List.mem_cons.mp (List.take_subset _ _ hqmem) with h | h
        · rw [h] at hq2
          exact hq2
        · have hle : q.1 ≤ p.1 :=
            (List.sorted_cons.mp hsort).1 q.1 (List.mem_map_of_mem Prod.fst h)
          exact lt_of_lt_of_le hq2 hle
      have h2pos : 0 < topK2 := by
        rcases Nat.eq_zero_or_pos topK2 with h | h
        · rw [h] at hqmem
          simp at hqmem
        · exact h
      have hc2 : consumedRow topK2 ((p :: rest).take topK2) = [] := by
        obtain ⟨k2, hk2⟩ := Nat.exists_eq_succ_of_ne_zero (Nat.pos_iff_ne_zero.mp h2pos)
        rw [hk2, List.take_succ_cons]
        exact consumedRow_nil_of_head_gt _ p _ hhead
      have hc1 : consumedRow topK1 ((p :: rest).take topK1) = [] := by
        rcases Nat.eq_zero_or_pos topK1 with h | h
        · rw [h]
          rfl
        · obtain ⟨k1, hk1⟩ := Nat.exists_eq_succ_of_ne_zero (Nat.pos_iff_ne_zero.mp h)
          rw [hk1, List.take_succ_cons]
          exact consumedRow_nil_of_head_gt _ p _ hhead
      rw [hc1, hc2]

theorem snd_mem_of_mem_enumFrom :
    ∀ (l : List α) (i : ℕ) (x : ℕ × α), x ∈ l.enumFrom i → x.2 ∈ l := by
  intro l
  induction l with
  | nil => intro i x h; simp [List.enumFrom] at h
  | cons a as ih =>
    intro i x h
    rcases List.mem_cons.mp h with h | h
    · rw [h]
      exact List.mem_cons_self a as
    · exact List.mem_cons_of_mem a (ih (i + 1) x h)

theorem coarseScore_eq (N topK : ℕ) (counts : List ℕ)
    (rows : List (List (R × ℕ))) (key : ℕ × ℤ) :
    coarseScore N topK counts rows key =
      (rows.enum.map (fun tr =>
        ((consumedRow topK tr.2).map (fun p =>
          if candKey N counts tr.1 p.2 = key then p.1 else 0)).sum)).sum := by
  unfold coarseScore contribs
  rw [List.map_flatten, List.sum_flatten, List.map_map, List.map_map]
  refine congrArg List.sum (List.map_congr_left ?_)
  intro tr _
  simp only [Function.comp, List.map_map]
  rfl

/-- Amended C7: with every search score non-negative, raising top_k never
lowers any key's coarse accumulated vote (the negative-score consumption
permitted by the code's 2.0 bound is what breaks the original claim). -/
theorem C7_amended_monotone (N topK1 topK2 : ℕ) (counts : List ℕ)
    (full : List (List (R × ℕ))) (key : ℕ × ℤ)
    (hk : topK1 ≤ topK2)
    (hsort : ∀ row ∈ full, List.Sorted (fun a b : R => b ≤ a) (row.map Prod.fst))
    (hpos : ∀ row ∈ full, ∀ p ∈ row, 0 ≤ p.1) :
    coarseScore N topK1 counts (full.map (fun row => row.take topK1)) key ≤
      coarseScore N topK2 counts (full.map (fun row => row.take topK2)) key := by
  rw [coarseScore_eq, coarseScore_eq, List.enum_map, List.enum_map,
    List.map_map, List.map_map]
  refine List.sum_le_sum ?_
  intro tr htr
  simp only [Function.comp, Prod.map_fst, Prod.map_snd, id]
  have hrowmem : tr.2 ∈ full := snd_mem_of_mem_enumFrom full 0 tr htr
  obtain ⟨tail, htail⟩ :=
    consumedRow_prefix topK1 topK2 tr.2 hk (hsort tr.2 hrowmem)
  rw [← htail, List.map_append, List.sum_append]
  have htailpos : 0 ≤ (tail.map (fun p =>
      if candKey N counts tr.1 p.2 = key then p.1 else 0)).sum := by
    refine List.sum_nonneg ?_
    intro x hx
    obtain ⟨p, hpmem, hpx⟩ := List.mem_map.mp hx
    have hptail : p ∈ consumedRow topK2 (tr.2.take topK2) := by
      rw [← htail]
      exact List.mem_append_right _ hpmem
    have hprow : p ∈ tr.2 := by
      have h1 : p ∈ tr.2.take topK2 := by
        have : consumedRow topK2 (tr.2.take topK2) ⊆ tr.2.take topK2 := by
          unfold consumedRow
          exact List.take_subset _ _
        exact this hptail
      exact List.take_subset _ _ h1
    rw [← hpx]
    by_cases hc : candKey N counts tr.1 p.2 = key
    · rw [if_pos hc]
      exact hpos tr.2 hrowmem p hprow
    · rw [if_neg hc]
  linarith

/-- Witness for the amended C7: a single frame with non-negative
descending scores; the coarse vote of key (0, 0) is monotone from
top_k = 1 to top_k = 2. -/
theorem C7_amended_monotone_witness :
    coarseScore 1 1 [2] ([[((2 : ℤ), (0 : ℕ)), (1, 1)]].map (fun row => row.take 1))
        (0, 0) ≤
      coarseScore 1 2 [2] ([[((2 : ℤ), (0 : ℕ)), (1, 1)]].map (fun row => row.take 2))
        (0, 0) :=
  C7_amended_monotone 1 1 2 [2] [[((2 : ℤ), (0 : ℕ)), (1, 1)]] (0, 0)
    (by decide) (by decide) (by decide)

end Pfann
